import Mathlib

/-!
# Verification of the `glob` package (pattern matching over filesystem trees)

This file embeds the Go package `glob` (file `glob.go`) in Lean 4 and proves
properties of the embedding.  Strings are modelled as sequences of runes
(`List Char`); Go's byte-level accesses coincide with rune-level accesses on
the inputs of interest.  The lazily-produced `iter.Seq2` of the walker is
modelled as the full list of emitted `(path, error)` items, i.e. a consumer
whose `yield` always returns `true`; paths are modelled as lists of path
segments, with `path.Join dir name` becoming `dir ++ [name]`.
-/

namespace GlobSpec

/-! ## Embedding of Go's `path.Match` (stdlib `path/match.go`)

The repository's `match` helper calls `path.Match` and drops the error.
`path.Match` is embedded faithfully: `scanChunk`, `matchChunk`, `getEsc`
and the outer `Pattern` loop, including the validation of the remainder of
the pattern when a match fails and the `ErrBadPattern` conditions. -/

/-- `getEsc` from `path/match.go`: a possibly-escaped character from a
character-class chunk.  Errors (`ErrBadPattern`, modelled as `Unit`) when the
chunk is empty, starts with `-` or `]`, has a trailing escape, or when nothing
follows the parsed character. -/
def getEsc : List Char → Except Unit (Char × List Char)
  | [] => .error ()
  | c :: rest =>
    if c = '-' || c = ']' then .error ()
    else if c = '\\' then
      match rest with
      | [] => .error ()
      | r :: rest' => if rest' = [] then .error () else .ok (r, rest')
    else if rest = [] then .error () else .ok (c, rest)

theorem getEsc_length {chunk rest : List Char} {c : Char}
    (h : getEsc chunk = .ok (c, rest)) : rest.length < chunk.length := by
  match chunk with
  | [] => simp [getEsc] at h
  | c0 :: tl =>
    simp only [getEsc] at h
    split at h
    · exact absurd h (by simp)
    · split at h
      · match tl with
        | [] => simp at h
        | r :: tl' =>
          simp only at h
          split at h
          · exact absurd h (by simp)
          · cases h; simp; omega
      · split at h
        · exact absurd h (by simp)
        · cases h; simp

/-- The range-parsing loop of the `[` case of `matchChunk`: parses
`character-range`s until a closing `]` (legal only after at least one range),
accumulating whether the examined rune `r` fell in some range. -/
def matchRanges (chunk : List Char) (r : Char) (acc : Bool) (nrange : Nat) :
    Except Unit (List Char × Bool) :=
  if chunk.head? = some ']' ∧ 0 < nrange then .ok (chunk.tail, acc)
  else
    match h1 : getEsc chunk with
    | .error e => .error e
    | .ok (lo, c1) =>
      if c1.head? = some '-' then
        match h3 : getEsc c1.tail with
        | .error e => .error e
        | .ok (hi, c2) =>
          matchRanges c2 r (acc || (decide (lo ≤ r) && decide (r ≤ hi))) (nrange + 1)
      else
        matchRanges c1 r (acc || (decide (lo ≤ r) && decide (r ≤ lo))) (nrange + 1)
  termination_by chunk.length
  decreasing_by
  · have l1 := getEsc_length h1
    have l3 := getEsc_length h3
    simp [List.length_tail] at l3
    omega
  · have l1 := getEsc_length h1
    omega

theorem matchRanges_length_aux (fuel : Nat) :
    ∀ (chunk : List Char), chunk.length ≤ fuel →
    ∀ (r : Char) (acc : Bool) (n : Nat) (rest : List Char) (m : Bool),
      matchRanges chunk r acc n = .ok (rest, m) → rest.length < chunk.length := by
  induction fuel with
  | zero =>
    intro chunk hlen r acc n rest m h
    have : chunk = [] := List.length_eq_zero.mp (Nat.le_zero.mp hlen)
    subst this
    rw [matchRanges] at h
    simp [getEsc] at h
  | succ k ih =>
    intro chunk hlen r acc n rest m h
    rw [matchRanges] at h
    split at h
    · rename_i hcond
      cases h
      obtain ⟨hh, -⟩ := hcond
      match chunk with
      | [] => simp at hh
      | c :: tl => simp
    · split at h
      · exact absurd h (by simp)
      · rename_i lo c1 h1
        have l1 := getEsc_length h1
        split at h
        · split at h
          · exact absurd h (by simp)
          · rename_i hi c2 h3
            have l3 := getEsc_length h3
            simp [List.length_tail] at l3
            have := ih c2 (by omega) _ _ _ _ _ h
            omega
        · have := ih c1 (by omega) _ _ _ _ _ h
          omega

theorem matchRanges_length {chunk : List Char} {r : Char} {acc : Bool} {n : Nat}
    {rest : List Char} {m : Bool}
    (h : matchRanges chunk r acc n = .ok (rest, m)) : rest.length < chunk.length :=
  matchRanges_length_aux chunk.length chunk le_rfl r acc n rest m h

/-- Unfolding lemma for `matchRanges` with the match on `getEsc` results
stated non-dependently (used to evaluate `matchRanges` on concrete input). -/
theorem matchRanges_eq (chunk : List Char) (r : Char) (acc : Bool) (nrange : Nat) :
    matchRanges chunk r acc nrange =
      if chunk.head? = some ']' ∧ 0 < nrange then .ok (chunk.tail, acc)
      else
        match getEsc chunk with
        | .error e => .error e
        | .ok (lo, c1) =>
          if c1.head? = some '-' then
            match getEsc c1.tail with
            | .error e => .error e
            | .ok (hi, c2) =>
              matchRanges c2 r (acc || (decide (lo ≤ r) && decide (r ≤ hi))) (nrange + 1)
          else
            matchRanges c1 r (acc || (decide (lo ≤ r) && decide (r ≤ lo))) (nrange + 1) := by
  rw [matchRanges]
  by_cases hc : chunk.head? = some ']' ∧ 0 < nrange
  · rw [if_pos hc, if_pos hc]
  · rw [if_neg hc, if_neg hc]
    cases h1 : getEsc chunk with
    | error e => rfl
    | ok p =>
      obtain ⟨lo, c1⟩ := p
      by_cases hd : c1.head? = some '-'
      · simp only [hd, reduceIte]
        cases h3 : getEsc c1.tail with
        | error e => rfl
        | ok q => rfl
      · simp only [hd, reduceIte]

/-- The possibly-negated prefix of a character class: strips a leading `^`
and reports whether one was present (the `negated` flag of `matchChunk`). -/
def stripCaret : List Char → List Char × Bool
  | '^' :: t => (t, true)
  | p => (p, false)

theorem stripCaret_length (p : List Char) : (stripCaret p).1.length ≤ p.length := by
  match p with
  | [] => simp [stripCaret]
  | c :: t =>
    by_cases h : c = '^'
    · subst h; simp [stripCaret]
    · have : stripCaret (c :: t) = (c :: t, false) := by
        unfold stripCaret
        split
        · simp_all
        · rfl
      simp [this]

/-- `matchChunk` from `path/match.go`: matches a chunk (single-character
operators only) against the beginning of `s`, carrying Go's `failed` flag,
which suppresses consumption of `s` while still validating the chunk's syntax.
`.ok (some t)` is Go's `(t, true, nil)`, `.ok none` is `("", false, nil)`, and
`.error ()` is `ErrBadPattern`. -/
def matchChunk : List Char → List Char → Bool → Except Unit (Option (List Char))
  | [], s, failed => if failed then .ok none else .ok (some s)
  | c :: rest, s, failed0 =>
    let failed := failed0 || s.isEmpty
    if c = '[' then
      -- character class: the examined rune is the zero rune when failed,
      -- else the head of s (which is then consumed)
      match h1 : matchRanges (stripCaret rest).1
          (if failed then Char.ofNat 0 else s.headD (Char.ofNat 0)) false 0 with
      | .error e => .error e
      | .ok (chunk1, m) =>
        matchChunk chunk1 (if failed then s else s.tail) (failed || (m == (stripCaret rest).2))
    else if c = '?' then
      if failed then matchChunk rest s true
      else matchChunk rest s.tail (decide (s.headD (Char.ofNat 0) = '/'))
    else if c = '\\' then
      match rest.head? with
      | none => .error ()
      | some ec =>
        -- fallthrough into the literal-character case with the escaped char
        if failed then matchChunk rest.tail s true
        else matchChunk rest.tail s.tail (!(decide (ec = s.headD (Char.ofNat 0))))
    else
      if failed then matchChunk rest s true
      else matchChunk rest s.tail (!(decide (c = s.headD (Char.ofNat 0))))
  termination_by chunk s f => chunk.length
  decreasing_by
  · simp only [List.length_cons]
    exact Nat.lt_succ_of_lt (lt_of_lt_of_le (matchRanges_length h1) (stripCaret_length _))
  all_goals simp_all
  all_goals omega

/-- The leading-star loop of `scanChunk`: consumes leading `*`s, reporting
whether any was present. -/
def dropStars : List Char → Bool × List Char
  | [] => (false, [])
  | c :: rest => if c = '*' then (true, (dropStars rest).2) else (false, c :: rest)

/-- The `Scan` loop of `scanChunk`: splits off the non-star chunk, tracking
`inrange` so that a `*` inside a character class does not end the chunk, and
skipping the character after a non-trailing `\`. -/
def scanTo : List Char → Bool → List Char × List Char
  | [], _ => ([], [])
  | c :: rest, inrange =>
    if c = '\\' then
      match rest with
      | [] => ([c], [])
      | c2 :: rest2 =>
        let q := scanTo rest2 inrange
        (c :: c2 :: q.1, q.2)
    else if c = '[' then
      let q := scanTo rest true
      (c :: q.1, q.2)
    else if c = ']' then
      let q := scanTo rest false
      (c :: q.1, q.2)
    else if c = '*' then
      if inrange then
        let q := scanTo rest inrange
        (c :: q.1, q.2)
      else ([], c :: rest)
    else
      let q := scanTo rest inrange
      (c :: q.1, q.2)

/-- `scanChunk` from `path/match.go`: the next segment of the pattern, a
non-star chunk possibly preceded by stars, plus the remaining pattern. -/
def scanChunk (p : List Char) : Bool × List Char × List Char :=
  let sp := dropStars p
  let cr := scanTo sp.2 false
  (sp.1, cr.1, cr.2)

theorem scanTo_rest_le_aux (fuel : Nat) :
    ∀ (p : List Char) (ir : Bool), p.length ≤ fuel →
      (scanTo p ir).2.length ≤ p.length := by
  induction fuel with
  | zero =>
    intro p ir hlen
    have : p = [] := List.length_eq_zero.mp (Nat.le_zero.mp hlen)
    subst this
    simp [scanTo]
  | succ k ih =>
    intro p ir hlen
    match p with
    | [] => simp [scanTo]
    | [c] =>
      simp only [scanTo]
      repeat' split
      all_goals simp [scanTo]
    | c :: c2 :: rest2 =>
      have hlen2 : (c2 :: rest2).length ≤ k := by simp at hlen ⊢; omega
      have h1 := ih rest2 ir (by simp at hlen ⊢; omega)
      have h2 := ih (c2 :: rest2) true hlen2
      have h3 := ih (c2 :: rest2) false hlen2
      have h4 := ih (c2 :: rest2) ir hlen2
      simp only [List.length_cons] at *
      simp only [scanTo]
      split
      · simp
        omega
      · split
        · simp
          omega
        · split
          · simp
            omega
          · split
            · split
              · simp
                omega
              · simp
            · simp
              omega

theorem scanTo_rest_le (p : List Char) (ir : Bool) : (scanTo p ir).2.length ≤ p.length :=
  scanTo_rest_le_aux p.length p ir le_rfl

theorem scanTo_cons_lt (c : Char) (rest : List Char) (ir : Bool)
    (h : c = '*' → ir = true) : (scanTo (c :: rest) ir).2.length < (c :: rest).length := by
  match rest with
  | [] =>
    simp only [scanTo]
    repeat' split
    all_goals simp_all [scanTo]
  | c2 :: rest2 =>
    have h1 := scanTo_rest_le rest2 ir
    have h2 := scanTo_rest_le (c2 :: rest2) true
    have h3 := scanTo_rest_le (c2 :: rest2) false
    have h4 := scanTo_rest_le (c2 :: rest2) ir
    simp only [List.length_cons] at *
    simp only [scanTo]
    split
    · simp
      omega
    · split
      · simp
        omega
      · split
        · simp
          omega
        · split
          · split
            · simp
              omega
            · simp_all
          · simp
            omega

theorem dropStars_le (p : List Char) : (dropStars p).2.length ≤ p.length := by
  induction p with
  | nil => simp [dropStars]
  | cons c rest ih =>
    simp only [dropStars]
    split
    · simp
      omega
    · simp

theorem dropStars_no_star (p : List Char) : (dropStars p).2.head? ≠ some '*' := by
  induction p with
  | nil => simp [dropStars]
  | cons c rest ih =>
    simp only [dropStars]
    split
    · exact ih
    · rename_i hc
      simp [hc]

theorem dropStars_star_lt (p : List Char) (h : p.head? = some '*') :
    (dropStars p).2.length < p.length := by
  match p with
  | [] => simp at h
  | c :: rest =>
    simp at h
    subst h
    simp only [dropStars, if_pos rfl]
    have := dropStars_le rest
    simp
    omega

theorem ite_tail_length_le (b : Prop) [Decidable b] (s : List Char) :
    (if b then s else s.tail).length ≤ s.length := by
  split
  · exact le_rfl
  · simp [List.length_tail]

theorem matchChunk_some_length_aux (fuel : Nat) :
    ∀ (chunk s : List Char) (f : Bool) (t : List Char), chunk.length ≤ fuel →
      matchChunk chunk s f = .ok (some t) → t.length ≤ s.length := by
  induction fuel with
  | zero =>
    intro chunk s f t hlen h
    have : chunk = [] := List.length_eq_zero.mp (Nat.le_zero.mp hlen)
    subst this
    simp only [matchChunk] at h
    split at h
    · exact absurd h (by simp)
    · cases h
      exact le_rfl
  | succ k ih =>
    intro chunk s f t hlen h
    match chunk with
    | [] =>
      simp only [matchChunk] at h
      split at h
      · exact absurd h (by simp)
      · cases h
        exact le_rfl
    | c :: rest =>
      simp only [List.length_cons] at hlen
      simp only [matchChunk] at h
      split at h
      · -- character class
        split at h
        · exact absurd h (by simp)
        · rename_i chunk1 m h1
          have l1 := matchRanges_length h1
          have l2 := stripCaret_length rest
          have := ih chunk1 _ _ t (by omega) h
          exact le_trans this (ite_tail_length_le _ s)
      · split at h
        · -- '?'
          split at h
          · exact le_trans (ih rest s true t (by omega) h) le_rfl
          · exact le_trans (ih rest s.tail _ t (by omega) h) (by simp [List.length_tail])
        · split at h
          · -- escape
            split at h
            · exact absurd h (by simp)
            · rename_i ec heq
              have ltl : rest.tail.length ≤ rest.length := by simp [List.length_tail]
              split at h
              · exact ih rest.tail s true t (by omega) h
              · exact le_trans (ih rest.tail s.tail _ t (by omega) h)
                  (by simp [List.length_tail])
          · -- literal character
            split at h
            · exact ih rest s true t (by omega) h
            · exact le_trans (ih rest s.tail _ t (by omega) h) (by simp [List.length_tail])

theorem matchChunk_some_length {chunk s : List Char} {f : Bool} {t : List Char}
    (h : matchChunk chunk s f = .ok (some t)) : t.length ≤ s.length :=
  matchChunk_some_length_aux chunk.length chunk s f t le_rfl h

/-- Unfolding lemma for the character-class case of `matchChunk`, with the
match on the `matchRanges` result stated non-dependently (used to evaluate
`matchChunk` on concrete input). -/
theorem matchChunk_class_eq (rest s : List Char) (failed0 : Bool) :
    matchChunk ('[' :: rest) s failed0 =
      match matchRanges (stripCaret rest).1
          (if (failed0 || s.isEmpty) = true then Char.ofNat 0 else s.headD (Char.ofNat 0))
          false 0 with
      | .error e => .error e
      | .ok (chunk1, m) =>
        matchChunk chunk1 (if (failed0 || s.isEmpty) = true then s else s.tail)
          ((failed0 || s.isEmpty) || (m == (stripCaret rest).2)) := by
  rw [matchChunk]
  simp only [reduceIte]
  cases h1 : matchRanges (stripCaret rest).1
      (if (failed0 || s.isEmpty) = true then Char.ofNat 0 else s.headD (Char.ofNat 0))
      false 0 with
  | error e => rfl
  | ok p =>
    obtain ⟨chunk1, m⟩ := p
    rfl

theorem scanChunk_rest_lt (p : List Char) (hp : p ≠ []) :
    (scanChunk p).2.2.length < p.length := by
  simp only [scanChunk]
  by_cases h : p.head? = some '*'
  · have h1 := dropStars_star_lt p h
    have h2 := scanTo_rest_le (dropStars p).2 false
    omega
  · match p with
    | [] => exact absurd rfl hp
    | c :: rest =>
      have hc : ¬ c = '*' := by
        intro hc
        exact h (by simp [hc])
      have hds : dropStars (c :: rest) = (false, c :: rest) := by
        simp [dropStars, hc]
      rw [hds]
      exact scanTo_cons_lt c rest false (fun hcc => absurd hcc hc)

/-- The final validation loop of `path.Match`: after the match has failed,
scan the remainder of the pattern chunk by chunk, checking each for syntax
errors by matching it against the empty string; the result is `false` unless
a bad pattern is found. -/
def validateRest (p : List Char) : Except Unit Bool :=
  if hp : p = [] then .ok false
  else
    let sc := scanChunk p
    match matchChunk sc.2.1 [] false with
    | .error e => .error e
    | .ok _ => validateRest sc.2.2
  termination_by p.length
  decreasing_by
  exact scanChunk_rest_lt p hp

mutual

/-- `Match` from `path/match.go` (the `Pattern` loop).  `.ok b` is
`(b, nil)`; `.error ()` is `ErrBadPattern`. -/
def goMatch (pattern name : List Char) : Except Unit Bool :=
  if hp : pattern = [] then .ok name.isEmpty
  else
    let sc := scanChunk pattern
    if sc.1 ∧ sc.2.1 = [] then
      -- a trailing * matches the rest of name unless it has a /
      .ok (!(name.contains '/'))
    else
      match matchChunk sc.2.1 name false with
      | .error e => .error e
      | .ok (some t) =>
        -- if we are the last chunk, make sure we have exhausted the name
        if t = [] ∨ sc.2.2 ≠ [] then goMatch sc.2.2 t
        else if sc.1 then starLoop sc.2.1 sc.2.2 name else validateRest sc.2.2
      | .ok none =>
        if sc.1 then starLoop sc.2.1 sc.2.2 name else validateRest sc.2.2
  termination_by (pattern.length, 0, name.length)
  decreasing_by
  all_goals exact Prod.Lex.left _ _ (scanChunk_rest_lt pattern hp)

/-- The inner star loop of `Match`: try the chunk at every position of
`name` (skipping one rune each time), stopping at a `/`. -/
def starLoop (chunk rest name : List Char) : Except Unit Bool :=
  match name with
  | [] => validateRest rest
  | c :: name1 =>
    if c = '/' then validateRest rest
    else
      match matchChunk chunk name1 false with
      | .error e => .error e
      | .ok (some t) =>
        -- if we are the last chunk, make sure we exhausted the name
        if rest = [] ∧ t ≠ [] then starLoop chunk rest name1
        else goMatch rest t
      | .ok none => starLoop chunk rest name1
  termination_by (rest.length, 1, name.length)
  decreasing_by
  · exact Prod.Lex.right _ (Prod.Lex.left _ _ (by omega))
  · exact Prod.Lex.right _ (Prod.Lex.right _ (by simp))

end

/-- `path.Match pattern name`, over rune sequences. -/
def pathMatch (pattern name : String) : Except Unit Bool :=
  goMatch pattern.data name.data

/-- The package-level helper `match` from `glob.go` (named `matchName` here
because `match` is reserved): `path.Match` with the error discarded. -/
def matchName (pattern name : String) : Bool :=
  match pathMatch pattern name with
  | .ok ok => ok
  | .error _ => false

/-! ## Embedding of `glob.go` -/

/-- The `pattern` type of `glob.go`: a list of per-level glob terms.  The
first entry applies to entries of the current directory, the rest to child
directories. -/
abbrev Pattern := List String

/-- `hasMeta` from `glob.go`: whether `p` contains a metacharacter of
`path.Match` (`strings.ContainsAny(p, "*?[\\")`). -/
def hasMeta (p : String) : Bool :=
  p.data.any fun c => c == '*' || c == '?' || c == '[' || c == '\\'

/-- `pattern.matchDir` from `glob.go`.  The Go method returns a `bool`
(immediate match of the directory name) and appends continuation patterns to
`*patterns`; here the appended list is returned as the second component. -/
def matchDir (p : Pattern) (name : String) : Bool × List Pattern :=
  match p with
  | [] => (false, [])
  -- an empty pattern would make the Go code panic at `p[0]`; it is
  -- unreachable, see the claim about pattern-set nonemptiness
  | step :: rest =>
    if step = "**" then
      -- a "**" step always re-emits the whole pattern into the next level
      if rest = [] then (true, [p]) else (false, [p, rest])
    else if !(matchName step name) then (false, [])
    else if rest = [] then (true, [])
    else (false, [rest])

/-- `pattern.matchFile` from `glob.go`. -/
def matchFile (p : Pattern) (name : String) : Bool :=
  match p with
  | [step] => step == "**" || matchName step name
  | _ => false

/-- `always` from `glob.go`: some pattern is exactly `["**"]`. -/
def always (patterns : List Pattern) : Bool :=
  patterns.any fun p => p == ["**"]

/-- `literal` from `glob.go`: if the active include set is a single pattern
whose first term has no metacharacters, return that term and the (at most
one-element) continuation set. -/
def literal (patterns : List Pattern) : Option (String × List Pattern) :=
  match patterns with
  | [p] =>
    match p with
    | [] => none
    -- an empty pattern would make the Go code panic at `p[0]`; unreachable
    | s :: rest =>
      if hasMeta s then none
      else some (s, if rest = [] then [] else [rest])
  | _ => none

/-- Go's `strings.Split(p, "/")` specialised to one-rune separators. -/
def splitSlash : List Char → List (List Char)
  | [] => [[]]
  | c :: rest =>
    if c = '/' then [] :: splitSlash rest
    else
      match splitSlash rest with
      | [] => [[c]]
      | piece :: pieces => (c :: piece) :: pieces

/-- The name-splitting step shared by `newPattern` and
`matchGlob.MatchPath`: split on `/` and drop empty components. -/
def pathNames (p : String) : List String :=
  ((splitSlash p.data).filter fun piece => piece ≠ []).map fun piece => String.mk piece

/-- `newPattern` from `glob.go`.  Returns the list of patterns the Go
function appends to `*patterns` (one pattern, or two when the pattern starts
with `"**"` and has more than one step), or `ErrBadPattern`. -/
def newPattern (p : String) : Except Unit (List Pattern) :=
  match pathMatch p "" with
  | .error e => .error e
  | .ok _ =>
    let steps := pathNames p
    match steps with
    | [] => .ok [[""]]
    | s :: rest =>
      .ok (if s = "**" ∧ rest ≠ [] then [s :: rest, rest] else [s :: rest])

/-- `newPatterns` from `glob.go`: compile a batch of pattern strings,
collecting the compiled patterns and (in order) the strings whose
compilation failed — Go collects one `path.ErrBadPattern` per failed string
and `errors.Join`s them, so the error value is modelled as the list of
failed strings. -/
def newPatterns : List String → List Pattern × List String
  | [] => ([], [])
  | p :: rest =>
    let acc := newPatterns rest
    match newPattern p with
    | .error _ => (acc.1, p :: acc.2)
    | .ok pats => (pats ++ acc.1, acc.2)

/-! ### The filesystem collaborator

`fs.FS` is modelled as a tree.  A node is a plain file, a directory with a
listing, a directory whose `ReadDir` fails with a non-`ErrNotExist` error, or
an entry whose `Stat` fails with a non-`ErrNotExist` error.  Paths are lists
of path segments (`path.Join dir name` is `dir ++ [name]`). -/

inductive FsErr where
  | notExist : FsErr
  | notDir : FsErr
  | ioErr : Nat → FsErr
deriving DecidableEq, Repr

inductive Node where
  | file : Node
  | dir : List (String × Node) → Node
  | badDir : Nat → Node
  | badStat : Nat → Node
deriving Repr

/-- The `IsDir` bit a directory listing reports for a node. -/
def Node.isDir : Node → Bool
  | .dir _ => true
  | .badDir _ => true
  | _ => false

/-- `fs.ReadDir` on a node. -/
def readDir : Node → Except FsErr (List (String × Node))
  | .dir es => .ok es
  | .badDir e => .error (.ioErr e)
  | _ => .error .notDir

/-- Directory-listing lookup by entry name. -/
def findEntry : List (String × Node) → String → Option Node
  | [], _ => none
  | (n, c) :: rest, m => if n = m then some c else findEntry rest m

/-- `fs.Stat(fsys, path.Join(dir, name))` relative to the node of `dir`:
absent entries report `ErrNotExist`; `badStat` entries report another
error. -/
def statChild : Node → String → Except FsErr Node
  | .dir es, m =>
    match findEntry es m with
    | none => .error .notExist
    | some (.badStat e) => .error (.ioErr e)
    | some c => .ok c
  | _, _ => .error .notDir

theorem findEntry_sizeOf {es : List (String × Node)} {m : String} {c : Node}
    (h : findEntry es m = some c) : sizeOf c < sizeOf es := by
  induction es with
  | nil => simp [findEntry] at h
  | cons e rest ih =>
    obtain ⟨n, c'⟩ := e
    simp only [findEntry] at h
    split at h
    · cases h
      simp
      omega
    · have := ih h
      simp
      omega

theorem statChild_sizeOf {nd : Node} {m : String} {c : Node}
    (h : statChild nd m = .ok c) : sizeOf c < sizeOf nd := by
  match nd with
  | .file => simp [statChild] at h
  | .badDir e => simp [statChild] at h
  | .badStat e => simp [statChild] at h
  | .dir es =>
    simp only [statChild] at h
    cases hfe : findEntry es m with
    | none =>
      rw [hfe] at h
      simp at h
    | some c' =>
      rw [hfe] at h
      have hlt := findEntry_sizeOf hfe
      match c' with
      | .badStat k => simp at h
      | .file =>
        simp at h
        subst h
        simp at hlt ⊢
        omega
      | .dir es2 =>
        simp at h
        subst h
        simp at hlt ⊢
        omega
      | .badDir k =>
        simp at h
        subst h
        simp at hlt ⊢
        omega

theorem readDir_sizeOf {nd : Node} {es : List (String × Node)}
    (h : readDir nd = .ok es) : sizeOf es < sizeOf nd := by
  match nd with
  | .file => simp [readDir] at h
  | .badDir e => simp [readDir] at h
  | .badStat e => simp [readDir] at h
  | .dir es' =>
    simp only [readDir] at h
    cases h
    simp

/-- The output of a walk: the `(path, error)` items emitted to `yield`, in
order, and the list of directories passed to `fs.ReadDir`, in order.  This
models `iter.Seq2[string, error]` under a consumer whose `yield` always
returns `true` (no claim concerns early termination); consequently the
`bool` results of the Go functions are constantly `true` and are dropped. -/
structure StepOut where
  out : List (List String × Option FsErr)
  reads : List (List String)
deriving DecidableEq, Repr

/-- The advancement of a pattern set over a directory name: everything the
`matchDir` loop appends to the next-level set, in order. -/
def advanceDirSet (ps : List Pattern) (name : String) : List Pattern :=
  ps.flatMap fun p => (matchDir p name).2

/-- Whether some pattern of the set immediately matches the directory name
(`matchDir` returned `true`). -/
def anyImmediate (ps : List Pattern) (name : String) : Bool :=
  ps.any fun p => (matchDir p name).1

/-- Whether some pattern of the set matches a file name. -/
def anyFileMatch (ps : List Pattern) (name : String) : Bool :=
  ps.any fun p => matchFile p name

mutual

/-- `matchStep` from `glob.go`.  `generalStep` is the part of the body from
the `fs.ReadDir` call on (Go lines 212-261), reachable both when `always`
holds with excludes present and when the literal fast-path does not apply. -/
def matchStep (nd : Node) (dir : List String) (yieldDir includeDirs : Bool)
    (inc exc : List Pattern) : StepOut :=
  if always inc then
    if exc = [] then allStep nd dir yieldDir includeDirs
    else generalStep nd dir yieldDir includeDirs [["**"]] exc
  else
    match literal inc with
    | some (name, nextInc) =>
      -- the literal fast-path: no listing, a single stat probe
      if anyFileMatch exc name then ⟨[], []⟩
      else
        match hstat : statChild nd name with
        | .error .notExist => ⟨[], []⟩
        | .error e => ⟨[(dir, some e)], []⟩
        | .ok c =>
          if c.isDir then
            let nextExc := advanceDirSet exc name
            if nextInc ≠ [] ∧ ¬ always nextExc then
              matchStep c (dir ++ [name]) includeDirs includeDirs nextInc nextExc
            else if !includeDirs then ⟨[], []⟩
            else ⟨[(dir ++ [name], none)], []⟩
          else ⟨[(dir ++ [name], none)], []⟩
    | none => generalStep nd dir yieldDir includeDirs inc exc
  termination_by (sizeOf nd, 2)
  decreasing_by
  · exact Prod.Lex.right _ (by omega)
  · exact Prod.Lex.left _ _ (statChild_sizeOf hstat)
  · exact Prod.Lex.right _ (by omega)

/-- Go lines 212-261 of `matchStep`: list the directory, emit it first when
requested, then process each entry. -/
def generalStep (nd : Node) (dir : List String) (yieldDir includeDirs : Bool)
    (inc exc : List Pattern) : StepOut :=
  match hrd : readDir nd with
  | .error e => ⟨[(dir, some e)], [dir]⟩
  | .ok infos =>
    let body := matchEntries infos dir includeDirs inc exc
    ⟨(if yieldDir ∧ includeDirs then [(dir, none)] else []) ++ body.out, dir :: body.reads⟩
  termination_by (sizeOf nd, 1)
  decreasing_by
  exact Prod.Lex.left _ _ (readDir_sizeOf hrd)

/-- The `match:` loop over directory entries in `matchStep`. -/
def matchEntries (infos : List (String × Node)) (dir : List String)
    (includeDirs : Bool) (inc exc : List Pattern) : StepOut :=
  match infos with
  | [] => ⟨[], []⟩
  | (n, c) :: rest =>
    let tail := matchEntries rest dir includeDirs inc exc
    if !c.isDir then
      if anyFileMatch exc n then tail
      else if anyFileMatch inc n then ⟨(dir ++ [n], none) :: tail.out, tail.reads⟩
      else tail
    else
      if anyImmediate exc n then tail
      else
        let nextInc := advanceDirSet inc n
        let nextExc := advanceDirSet exc n
        let included := includeDirs && anyImmediate inc n
        if nextInc ≠ [] ∧ ¬ always nextExc then
          -- if there is more to do, the recursive call yields the matched
          -- directory (Go resets `included` afterwards)
          let sub := matchStep c (dir ++ [n]) included includeDirs nextInc nextExc
          ⟨sub.out ++ tail.out, sub.reads ++ tail.reads⟩
        else if included then ⟨(dir ++ [n], none) :: tail.out, tail.reads⟩
        else tail
  termination_by (sizeOf infos, 0)
  decreasing_by
  · exact Prod.Lex.left _ _
      (by simp only [List.cons.sizeOf_spec, Prod.mk.sizeOf_spec]; omega)
  · exact Prod.Lex.left _ _
      (by simp only [List.cons.sizeOf_spec, Prod.mk.sizeOf_spec]; omega)

/-- `allStep` from `glob.go`: emit everything under a directory. -/
def allStep (nd : Node) (dir : List String) (yieldDir includeDirs : Bool) : StepOut :=
  match hrd : readDir nd with
  | .error e => ⟨[(dir, some e)], [dir]⟩
  | .ok infos =>
    let body := allEntries infos dir includeDirs
    ⟨(if yieldDir ∧ includeDirs then [(dir, none)] else []) ++ body.out, dir :: body.reads⟩
  termination_by (sizeOf nd, 1)
  decreasing_by
  exact Prod.Lex.left _ _ (readDir_sizeOf hrd)

/-- The entry loop of `allStep`. -/
def allEntries (infos : List (String × Node)) (dir : List String)
    (includeDirs : Bool) : StepOut :=
  match infos with
  | [] => ⟨[], []⟩
  | (n, c) :: rest =>
    let tail := allEntries rest dir includeDirs
    if c.isDir then
      let sub := allStep c (dir ++ [n]) true includeDirs
      ⟨sub.out ++ tail.out, sub.reads ++ tail.reads⟩
    else ⟨(dir ++ [n], none) :: tail.out, tail.reads⟩
  termination_by (sizeOf infos, 0)
  decreasing_by
  · exact Prod.Lex.left _ _
      (by simp only [List.cons.sizeOf_spec, Prod.mk.sizeOf_spec]; omega)
  · exact Prod.Lex.left _ _
      (by simp only [List.cons.sizeOf_spec, Prod.mk.sizeOf_spec]; omega)

end

/-- Unfolding lemma for `matchStep` with the match on the stat probe stated
non-dependently (used both for evaluation and in proofs). -/
theorem matchStep_eq (nd : Node) (dir : List String) (yieldDir includeDirs : Bool)
    (inc exc : List Pattern) :
    matchStep nd dir yieldDir includeDirs inc exc =
      if always inc then
        if exc = [] then allStep nd dir yieldDir includeDirs
        else generalStep nd dir yieldDir includeDirs [["**"]] exc
      else
        match literal inc with
        | some (name, nextInc) =>
          if anyFileMatch exc name then ⟨[], []⟩
          else
            match statChild nd name with
            | .error .notExist => ⟨[], []⟩
            | .error e => ⟨[(dir, some e)], []⟩
            | .ok c =>
              if c.isDir then
                let nextExc := advanceDirSet exc name
                if nextInc ≠ [] ∧ ¬ always nextExc then
                  matchStep c (dir ++ [name]) includeDirs includeDirs nextInc nextExc
                else if !includeDirs then ⟨[], []⟩
                else ⟨[(dir ++ [name], none)], []⟩
              else ⟨[(dir ++ [name], none)], []⟩
        | none => generalStep nd dir yieldDir includeDirs inc exc := by
  rw [matchStep]
  by_cases ha : always inc = true
  · simp only [ha, reduceIte]
  · simp only [ha]
    cases hl : literal inc with
    | none => rfl
    | some p =>
      obtain ⟨name, nextInc⟩ := p
      by_cases hf : anyFileMatch exc name = true
      · simp only [hf, reduceIte]
      · simp only [hf]
        cases hstat : statChild nd name with
        | error e =>
          cases e <;> rfl
        | ok c => rfl

/-- Unfolding lemma for `generalStep` with the match on the directory
listing stated non-dependently. -/
theorem generalStep_eq (nd : Node) (dir : List String) (yieldDir includeDirs : Bool)
    (inc exc : List Pattern) :
    generalStep nd dir yieldDir includeDirs inc exc =
      match readDir nd with
      | .error e => ⟨[(dir, some e)], [dir]⟩
      | .ok infos =>
        let body := matchEntries infos dir includeDirs inc exc
        ⟨(if yieldDir ∧ includeDirs then [(dir, none)] else []) ++ body.out,
          dir :: body.reads⟩ := by
  rw [generalStep]
  cases hrd : readDir nd with
  | error e => rfl
  | ok infos => rfl

/-- Unfolding lemma for `allStep` with the match on the directory listing
stated non-dependently. -/
theorem allStep_eq (nd : Node) (dir : List String) (yieldDir includeDirs : Bool) :
    allStep nd dir yieldDir includeDirs =
      match readDir nd with
      | .error e => ⟨[(dir, some e)], [dir]⟩
      | .ok infos =>
        let body := allEntries infos dir includeDirs
        ⟨(if yieldDir ∧ includeDirs then [(dir, none)] else []) ++ body.out,
          dir :: body.reads⟩ := by
  rw [allStep]
  cases hrd : readDir nd with
  | error e => rfl
  | ok infos => rfl

/-- The per-level loop of `matchGlob.MatchPath`: intermediate segments
advance both sets (an exclude immediate match or an empty advanced include
set short-circuits to `false`); the final segment asks for an immediate
match. -/
def matchPathLoop (inc exc : List Pattern) : List String → Bool
  | [] => false
  | [last] =>
    if anyImmediate exc last then false
    else anyImmediate inc last
  | d :: rest =>
    if anyImmediate exc d then false
    else
      let nextInc := advanceDirSet inc d
      if nextInc = [] then false
      else matchPathLoop nextInc (advanceDirSet exc d) rest

/-- `matchGlob.MatchPath` from `glob.go`. -/
def matchGlobMatchPath (inc exc : List Pattern) (p : String) : Bool :=
  let names := pathNames p
  if names = [] then false
  else matchPathLoop inc exc names

/-- The three strategies `New` can return: `allGlob`, `noneGlob`, or a
`matchGlob` with its compiled include and exclude pattern sets. -/
inductive Glob where
  | allG : Glob
  | noneG : Glob
  | matchG : List Pattern → List Pattern → Glob
deriving DecidableEq, Repr

/-- `Glob.MatchPath`: `allGlob` returns `true`, `noneGlob` returns `false`,
`matchGlob` runs the advancement loop. -/
def MatchPath : Glob → String → Bool
  | .allG, _ => true
  | .noneG, _ => false
  | .matchG inc exc, p => matchGlobMatchPath inc exc p

/-- `Glob.Match fsys dir includeDirs`, as the full emitted sequence plus the
directories read (the walkers are entered with `yieldDir = false`). -/
def MatchTree : Glob → Node → List String → Bool → StepOut
  | .allG, nd, dir, includeDirs => allStep nd dir false includeDirs
  | .noneG, _, _, _ => ⟨[], []⟩
  | .matchG inc exc, nd, dir, includeDirs => matchStep nd dir false includeDirs inc exc

/-- `New` from `glob.go`.  The error of a failed construction is the list of
pattern strings whose compilation failed (includes first, then excludes),
mirroring `errors.Join(inclErr, exclErr)`. -/
def New (includes excludes : List String) : Except (List String) Glob :=
  if excludes = [] ∧ includes.contains "**" then .ok .allG
  else if includes = [] ∨ excludes.contains "**" then .ok .noneG
  else
    let ip := newPatterns includes
    let ep := newPatterns excludes
    if ip.2 ++ ep.2 = [] then .ok (.matchG ip.1 ep.1)
    else .error (ip.2 ++ ep.2)

/-! ### Spec-side definitions

The following definitions transcribe the specification's wording, for
comparison against the code-derived definitions above. -/

/-- Whether a pattern string is syntactically malformed: `path.Match`
against the empty string reports `ErrBadPattern` (this is exactly the
validation probe `newPattern` performs). -/
def badPattern (p : String) : Bool :=
  match pathMatch p "" with
  | .error _ => true
  | .ok _ => false

/-- Spec-side (claim C2): the pattern terms `ts` fully match the path
segments `segs`, where a `"**"` term matches any number of segments,
including zero, and any other term glob-matches exactly one segment. -/
def termsMatch : List String → List String → Bool
  | [], segs => segs.isEmpty
  | t :: ts, segs =>
    if t = "**" then
      (List.range (segs.length + 1)).any fun k => termsMatch ts (segs.drop k)
    else
      match segs with
      | [] => false
      | s :: ss => matchName t s && termsMatch ts ss

/-- Spec-side (claim C2): `MatchPath` as described by the specification —
some include pattern string fully matches the path's segment sequence, and
no exclude pattern string fully matches any prefix of it. -/
def specMatches (includes excludes : List String) (p : String) : Prop :=
  (∃ i ∈ includes, termsMatch (pathNames i) (pathNames p) = true) ∧
    (∀ e ∈ excludes, ∀ k ≤ (pathNames p).length,
      termsMatch (pathNames e) ((pathNames p).take k) = false)

instance (includes excludes : List String) (p : String) :
    Decidable (specMatches includes excludes p) := by
  unfold specMatches
  infer_instance

/-- The tree that contains exactly the path with the given segments (and
its ancestor directories) and nothing else, the leaf being a plain file
(claim C1). -/
def singletonTree : List String → Node
  | [] => Node.dir []
  | [n] => Node.dir [(n, Node.file)]
  | n :: rest => Node.dir [(n, singletonTree rest)]

/-! ## General lemmas about the embedding -/

/-- A `["**"]` member survives any directory advancement, so an `always`
set advances to a nonempty set over any name. -/
theorem always_advance_ne {inc : List Pattern} (h : always inc = true) (n : String) :
    advanceDirSet inc n ≠ [] := by
  unfold always at h
  rcases List.any_eq_true.mp h with ⟨p, hp, he⟩
  have hpeq : p = ["**"] := by simpa using he
  subst hpeq
  intro hnil
  have hmem : (["**"] : Pattern) ∈ advanceDirSet inc n := by
    unfold advanceDirSet
    exact List.mem_flatMap.mpr ⟨["**"], hp, by simp [matchDir]⟩
  rw [hnil] at hmem
  simp at hmem

/-- An immediate directory match is also a file match: both require a
single remaining term that is `"**"` or glob-matches the name. -/
theorem immediate_matchFile {e : Pattern} {n : String}
    (h : (matchDir e n).1 = true) : matchFile e n = true := by
  match e with
  | [] => simp [matchDir] at h
  | step :: rest =>
    simp only [matchDir] at h
    split at h
    · rename_i hstar
      split at h
      · rename_i hrest
        subst hrest
        simp [matchFile, hstar]
      · simp at h
    · split at h
      · simp at h
      · split at h
        · rename_i hmn hrest
          subst hrest
          simp only [matchFile]
          simp at hmn
          simp [hmn]
        · simp at h

/-- `scanTo` consumes a metacharacter-free pattern whole. -/
theorem scanTo_no_meta_aux (fuel : Nat) :
    ∀ (p : List Char) (ir : Bool), p.length ≤ fuel →
      (∀ c ∈ p, ¬c = '*' ∧ ¬c = '\\' ∧ ¬c = '[') → scanTo p ir = (p, []) := by
  induction fuel with
  | zero =>
    intro p ir hlen hmeta
    have : p = [] := List.length_eq_zero.mp (Nat.le_zero.mp hlen)
    subst this
    simp [scanTo]
  | succ k ih =>
    intro p ir hlen hmeta
    match p with
    | [] => simp [scanTo]
    | [c] =>
      obtain ⟨h1, h2, h3⟩ := hmeta c (by simp)
      simp only [scanTo]
      rw [if_neg h2, if_neg h3]
      by_cases hc : c = ']'
      · simp [hc, scanTo]
      · rw [if_neg hc, if_neg h1]
    | c :: c2 :: rest2 =>
      obtain ⟨h1, h2, h3⟩ := hmeta c (by simp)
      have hrest : ∀ d ∈ c2 :: rest2, ¬d = '*' ∧ ¬d = '\\' ∧ ¬d = '[' := by
        intro d hd
        exact hmeta d (by simp [List.mem_cons.mp hd])
      have hlen2 : (c2 :: rest2).length ≤ k := by
        simp at hlen ⊢
        omega
      simp only [scanTo]
      rw [if_neg h2, if_neg h3]
      by_cases hc : c = ']'
      · rw [if_pos hc]
        rw [ih (c2 :: rest2) false hlen2 hrest]
      · rw [if_neg hc, if_neg h1]
        rw [ih (c2 :: rest2) ir hlen2 hrest]

/-- `matchChunk` matches a class-, wildcard- and escape-free chunk against
itself, consuming everything. -/
theorem matchChunk_self (chunk : List Char)
    (h : ∀ c ∈ chunk, ¬c = '[' ∧ ¬c = '?' ∧ ¬c = '\\') :
    matchChunk chunk chunk false = .ok (some []) := by
  induction chunk with
  | nil => simp [matchChunk]
  | cons c rest ih =>
    obtain ⟨h1, h2, h3⟩ := h c (by simp)
    simp only [matchChunk]
    rw [if_neg h1, if_neg h2, if_neg h3]
    simpa using ih fun d hd => h d (by simp [hd])

theorem scanTo_no_meta {p : List Char} (ir : Bool)
    (h : ∀ c ∈ p, ¬c = '*' ∧ ¬c = '\\' ∧ ¬c = '[') : scanTo p ir = (p, []) :=
  scanTo_no_meta_aux p.length p ir le_rfl h

/-- A metacharacter-free string `path.Match`es itself. -/
theorem matchName_self {s : String} (h : hasMeta s = false) : matchName s s = true := by
  have hall : ∀ c ∈ s.data, ¬c = '*' ∧ ¬c = '?' ∧ ¬c = '[' ∧ ¬c = '\\' := by
    have h' := h
    unfold hasMeta at h'
    rw [List.any_eq_false] at h'
    intro c hc
    have h2 := h' c hc
    simp at h2
    exact ⟨h2.1.1.1, h2.1.1.2, h2.1.2, h2.2⟩
  have hgm0 : goMatch [] [] = .ok true := by
    rw [goMatch]
    simp
  unfold matchName pathMatch
  cases hsd : s.data with
  | nil =>
    rw [hgm0]
  | cons c rest =>
    have hall2 : ∀ d ∈ c :: rest, ¬d = '*' ∧ ¬d = '?' ∧ ¬d = '[' ∧ ¬d = '\\' := by
      rw [← hsd]
      exact hall
    have hsc : scanChunk (c :: rest) = (false, c :: rest, []) := by
      unfold scanChunk
      rw [dropStars, if_neg (hall2 c (by simp)).1]
      simp [scanTo_no_meta false fun d hd =>
        ⟨(hall2 d hd).1, (hall2 d hd).2.2.2, (hall2 d hd).2.2.1⟩]
    have hmc : matchChunk (c :: rest) (c :: rest) false = .ok (some []) :=
      matchChunk_self (c :: rest) fun d hd =>
        ⟨(hall2 d hd).2.2.1, (hall2 d hd).2.1, (hall2 d hd).2.2.2⟩
    rw [goMatch]
    simp [hsc, hmc, hgm0]

theorem node_sizeOf_pos (nd : Node) : 0 < sizeOf nd := by
  cases nd <;> simp

theorem entries_sizeOf_pos (infos : List (String × Node)) : 0 < sizeOf infos := by
  cases infos <;> simp

theorem entries_head_sizeOf {n : String} {c : Node} {rest : List (String × Node)} :
    sizeOf c < sizeOf ((n, c) :: rest) := by
  simp only [List.cons.sizeOf_spec, Prod.mk.sizeOf_spec]
  omega

theorem entries_tail_sizeOf {e : String × Node} {rest : List (String × Node)} :
    sizeOf rest < sizeOf (e :: rest) := by
  simp only [List.cons.sizeOf_spec]
  omega

/-- Every directory the walkers pass to `ReadDir` lies at or below the
directory of the call (`matchStep`, `generalStep`, `allStep`), and below a
named child for the entry loops (`matchEntries`, `allEntries`). -/
theorem reads_shape_aux (fuel : Nat) :
    (∀ (nd : Node) (dir : List String) (yd id : Bool) (inc exc : List Pattern),
      sizeOf nd ≤ fuel →
      ∀ q ∈ (matchStep nd dir yd id inc exc).reads, ∃ t, q = dir ++ t) ∧
    (∀ (nd : Node) (dir : List String) (yd id : Bool) (inc exc : List Pattern),
      sizeOf nd ≤ fuel →
      ∀ q ∈ (generalStep nd dir yd id inc exc).reads, ∃ t, q = dir ++ t) ∧
    (∀ (infos : List (String × Node)) (dir : List String) (id : Bool)
      (inc exc : List Pattern), sizeOf infos ≤ fuel →
      ∀ q ∈ (matchEntries infos dir id inc exc).reads,
        ∃ n c t, (n, c) ∈ infos ∧ q = dir ++ n :: t) ∧
    (∀ (nd : Node) (dir : List String) (yd id : Bool), sizeOf nd ≤ fuel →
      ∀ q ∈ (allStep nd dir yd id).reads, ∃ t, q = dir ++ t) ∧
    (∀ (infos : List (String × Node)) (dir : List String) (id : Bool),
      sizeOf infos ≤ fuel →
      ∀ q ∈ (allEntries infos dir id).reads,
        ∃ n c t, (n, c) ∈ infos ∧ q = dir ++ n :: t) := by
  induction fuel with
  | zero =>
    refine ⟨?_, ?_, ?_, ?_, ?_⟩
    · intro nd _ _ _ _ _ hsz
      exact absurd hsz (by have := node_sizeOf_pos nd; omega)
    · intro nd _ _ _ _ _ hsz
      exact absurd hsz (by have := node_sizeOf_pos nd; omega)
    · intro infos _ _ _ _ hsz
      exact absurd hsz (by have := entries_sizeOf_pos infos; omega)
    · intro nd _ _ _ hsz
      exact absurd hsz (by have := node_sizeOf_pos nd; omega)
    · intro infos _ _ hsz
      exact absurd hsz (by have := entries_sizeOf_pos infos; omega)
  | succ k ih =>
    obtain ⟨ihStep, ihGen, ihEntries, ihAll, ihAllE⟩ := ih
    have hAllE : ∀ (infos : List (String × Node)) (dir : List String) (id : Bool),
        sizeOf infos ≤ k + 1 →
        ∀ q ∈ (allEntries infos dir id).reads,
          ∃ n c t, (n, c) ∈ infos ∧ q = dir ++ n :: t := by
      intro infos dir id hsz q hq
      match infos with
      | [] =>
        rw [allEntries] at hq
        simp at hq
      | (n, c) :: rest =>
        rw [allEntries] at hq
        simp only at hq
        have hsztl : sizeOf rest ≤ k := by
          have := @entries_tail_sizeOf (n, c) rest
          omega
        by_cases hd : c.isDir = true
        · simp only [hd, if_true] at hq
          rcases List.mem_append.mp hq with h1 | h1
          · have hszc : sizeOf c ≤ k := by
              have := @entries_head_sizeOf n c rest
              omega
            rcases ihAll c (dir ++ [n]) true id hszc q h1 with ⟨t, ht⟩
            exact ⟨n, c, t, by simp, by simp [ht]⟩
          · rcases ihAllE rest dir id hsztl q h1 with ⟨n2, c2, t2, hmem2, heq2⟩
            exact ⟨n2, c2, t2, by simp [hmem2], heq2⟩
        · simp only [hd, if_false] at hq
          rcases ihAllE rest dir id hsztl q hq with ⟨n2, c2, t2, hmem2, heq2⟩
          exact ⟨n2, c2, t2, by simp [hmem2], heq2⟩
    have hAll : ∀ (nd : Node) (dir : List String) (yd id : Bool), sizeOf nd ≤ k + 1 →
        ∀ q ∈ (allStep nd dir yd id).reads, ∃ t, q = dir ++ t := by
      intro nd dir yd id hsz q hq
      rw [allStep_eq] at hq
      cases hrd : readDir nd with
      | error e =>
        rw [hrd] at hq
        simp at hq
        exact ⟨[], by simp [hq]⟩
      | ok infos =>
        rw [hrd] at hq
        simp at hq
        rcases hq with h1 | h1
        · exact ⟨[], by simp [h1]⟩
        · have : sizeOf infos ≤ k := by
            have := readDir_sizeOf hrd
            omega
          rcases hAllE infos dir id (by omega) q h1 with ⟨n, c, t, hmem, heq⟩
          exact ⟨n :: t, heq⟩
    have hEntries : ∀ (infos : List (String × Node)) (dir : List String) (id : Bool)
        (inc exc : List Pattern), sizeOf infos ≤ k + 1 →
        ∀ q ∈ (matchEntries infos dir id inc exc).reads,
          ∃ n c t, (n, c) ∈ infos ∧ q = dir ++ n :: t := by
      intro infos dir id inc exc hsz q hq
      match infos with
      | [] =>
        rw [matchEntries] at hq
        simp at hq
      | (n, c) :: rest =>
        rw [matchEntries] at hq
        simp only at hq
        have htail : q ∈ (matchEntries rest dir id inc exc).reads →
            ∃ n2 c2 t2, (n2, c2) ∈ (n, c) :: rest ∧ q = dir ++ n2 :: t2 := by
          intro h1
          have hsztl : sizeOf rest ≤ k := by
            have := @entries_tail_sizeOf (n, c) rest
            omega
          rcases ihEntries rest dir id inc exc hsztl q h1 with ⟨n2, c2, t2, hmem2, heq2⟩
          exact ⟨n2, c2, t2, by simp [hmem2], heq2⟩
        split at hq
        · -- plain file entries contribute no reads
          split at hq
          · exact htail hq
          · split at hq
            · exact htail hq
            · exact htail hq
        · split at hq
          · exact htail hq
          · split at hq
            · rcases List.mem_append.mp hq with h1 | h1
              · have hszc : sizeOf c ≤ k := by
                  have := @entries_head_sizeOf n c rest
                  omega
                rcases ihStep c (dir ++ [n]) (id && anyImmediate inc n) id
                    (advanceDirSet inc n) (advanceDirSet exc n) hszc q h1 with ⟨t, ht⟩
                exact ⟨n, c, t, by simp, by simp [ht]⟩
              · exact htail h1
            · split at hq
              · exact htail hq
              · exact htail hq
    have hGen : ∀ (nd : Node) (dir : List String) (yd id : Bool) (inc exc : List Pattern),
        sizeOf nd ≤ k + 1 →
        ∀ q ∈ (generalStep nd dir yd id inc exc).reads, ∃ t, q = dir ++ t := by
      intro nd dir yd id inc exc hsz q hq
      rw [generalStep_eq] at hq
      cases hrd : readDir nd with
      | error e =>
        rw [hrd] at hq
        simp at hq
        exact ⟨[], by simp [hq]⟩
      | ok infos =>
        rw [hrd] at hq
        simp at hq
        rcases hq with h1 | h1
        · exact ⟨[], by simp [h1]⟩
        · have : sizeOf infos ≤ k := by
            have := readDir_sizeOf hrd
            omega
          rcases hEntries infos dir id inc exc (by omega) q h1 with ⟨n, c, t, hmem, heq⟩
          exact ⟨n :: t, heq⟩
    have hStep : ∀ (nd : Node) (dir : List String) (yd id : Bool) (inc exc : List Pattern),
        sizeOf nd ≤ k + 1 →
        ∀ q ∈ (matchStep nd dir yd id inc exc).reads, ∃ t, q = dir ++ t := by
      intro nd dir yd id inc exc hsz q hq
      rw [matchStep_eq] at hq
      split at hq
      · split at hq
        · exact hAll nd dir yd id hsz q hq
        · exact hGen nd dir yd id [["**"]] exc hsz q hq
      · split at hq
        · -- literal fast path
          rename_i name nx hl
          split at hq
          · simp at hq
          · split at hq
            · simp at hq
            · simp at hq
            · rename_i c hstat
              split at hq
              · simp only at hq
                split at hq
                · have hszc : sizeOf c ≤ k := by
                    have := statChild_sizeOf hstat
                    omega
                  rcases ihStep c (dir ++ [name]) id id nx
                      (advanceDirSet exc name) hszc q hq with ⟨t, ht⟩
                  exact ⟨name :: t, by simp [ht]⟩
                · split at hq <;> simp at hq
              · simp at hq
        · exact hGen nd dir yd id inc exc hsz q hq
    exact ⟨hStep, hGen, hEntries, hAll, hAllE⟩

theorem matchStep_reads_shape {nd : Node} {dir : List String} {yd id : Bool}
    {inc exc : List Pattern} :
    ∀ q ∈ (matchStep nd dir yd id inc exc).reads, ∃ t, q = dir ++ t :=
  (reads_shape_aux (sizeOf nd)).1 nd dir yd id inc exc le_rfl

theorem matchEntries_reads_shape {infos : List (String × Node)} {dir : List String}
    {id : Bool} {inc exc : List Pattern} :
    ∀ q ∈ (matchEntries infos dir id inc exc).reads,
      ∃ n c t, (n, c) ∈ infos ∧ q = dir ++ n :: t :=
  (reads_shape_aux (sizeOf infos)).2.2.1 infos dir id inc exc le_rfl

/-- The shape of a successful fast-path probe of the include set. -/
theorem literal_spec {inc : List Pattern} {name : String} {nx : List Pattern}
    (h : literal inc = some (name, nx)) :
    ∃ ptail, inc = [name :: ptail] ∧ hasMeta name = false ∧
      nx = if ptail = [] then [] else [ptail] := by
  match inc with
  | [] => simp [literal] at h
  | [p] =>
    match p with
    | [] => simp [literal] at h
    | s :: rest =>
      simp only [literal] at h
      split at h
      · simp at h
      · rename_i hmeta
        simp at h
        obtain ⟨h1, h2⟩ := h
        subst h1
        exact ⟨rest, rfl, by simpa using hmeta, h2.symm⟩
  | p :: q :: rest => simp [literal] at h

theorem hasMeta_starstar : hasMeta "**" = true := by decide

theorem ne_starstar_of_no_meta {s : String} (h : hasMeta s = false) : s ≠ "**" := by
  intro he
  rw [he, hasMeta_starstar] at h
  exact absurd h (by simp)

/-- The advancement of a meta-free literal pattern over its own first term
is exactly its continuation. -/
theorem advanceDirSet_literal_self {name : String} {ptail : List String}
    (hmeta : hasMeta name = false) (hptail : ptail ≠ []) :
    advanceDirSet [name :: ptail] name = [ptail] := by
  unfold advanceDirSet
  simp only [List.flatMap_cons, List.flatMap_nil, List.append_nil]
  simp only [matchDir]
  rw [if_neg (ne_starstar_of_no_meta hmeta)]
  rw [matchName_self hmeta]
  simp only [Bool.not_true, Bool.false_eq_true, if_false]
  rw [if_neg hptail]

/-- An entry whose advanced include set is empty, or that an exclude
pattern immediately matches, contributes no reads from the entry loop: the
walk never lists it nor anything below it. -/
theorem matchEntries_pruned {infos : List (String × Node)} {dir : List String}
    {id : Bool} {inc exc : List Pattern} {n0 : String}
    (hpr : advanceDirSet inc n0 = [] ∨ anyImmediate exc n0 = true) :
    ∀ q ∈ (matchEntries infos dir id inc exc).reads, ¬ ∃ t, q = dir ++ n0 :: t := by
  induction infos with
  | nil =>
    intro q hq
    rw [matchEntries] at hq
    simp at hq
  | cons e rest ih =>
    obtain ⟨n, c⟩ := e
    intro q hq
    rw [matchEntries] at hq
    simp only at hq
    split at hq
    · split at hq
      · exact ih q hq
      · split at hq
        · exact ih q hq
        · exact ih q hq
    · split at hq
      · exact ih q hq
      · split at hq
        · rcases List.mem_append.mp hq with h1 | h1
          · rintro ⟨t, ht⟩
            rcases matchStep_reads_shape q h1 with ⟨t2, ht2⟩
            have hcomb : dir ++ (n :: t2) = dir ++ (n0 :: t) := by
              have h3 := ht2.symm.trans ht
              simpa [List.append_assoc] using h3
            injection List.append_cancel_left hcomb with h3 h4
            subst h3
            rename_i hex hrec
            rcases hpr with h2 | h2
            · exact hrec.1 h2
            · exact hex h2
          · exact ih q h1
        · split at hq
          · exact ih q hq
          · exact ih q hq

/-- Claim C6's statement at a single walker invocation: if a directory
entry's advanced include set is empty or an exclude immediately matches its
name, no directory at or below that entry is ever listed by the walk. -/
theorem matchStep_pruned {es : List (String × Node)} {dir : List String} {yd id : Bool}
    {inc exc : List Pattern} {n0 : String}
    (hpr : advanceDirSet inc n0 = [] ∨ anyImmediate exc n0 = true) :
    ∀ q ∈ (matchStep (Node.dir es) dir yd id inc exc).reads,
      ¬ ∃ t, q = dir ++ n0 :: t := by
  intro q hq
  rw [matchStep_eq] at hq
  split at hq
  · rename_i ha
    split at hq
    · -- match-everything: the prune condition cannot hold
      rename_i he
      rcases hpr with h2 | h2
      · exact absurd h2 (always_advance_ne ha n0)
      · rw [he] at h2
        simp [anyImmediate] at h2
    · rw [generalStep_eq] at hq
      simp only [readDir] at hq
      rcases List.mem_cons.mp hq with h1 | h1
      · rintro ⟨t, ht⟩
        subst h1
        have := congrArg List.length ht
        simp at this
      · refine matchEntries_pruned ?_ q h1
        rcases hpr with h2 | h2
        · exact absurd h2 (always_advance_ne ha n0)
        · exact Or.inr h2
  · split at hq
    · -- literal fast path
      rename_i name nx hl
      split at hq
      · simp at hq
      · rename_i hf
        split at hq
        · simp at hq
        · simp at hq
        · rename_i c hstat
          split at hq
          · simp only at hq
            split at hq
            · rename_i hrec
              rintro ⟨t, ht⟩
              rcases matchStep_reads_shape q hq with ⟨t2, ht2⟩
              have hcomb : dir ++ (name :: t2) = dir ++ (n0 :: t) := by
                have h3 := ht2.symm.trans ht
                simpa [List.append_assoc] using h3
              injection List.append_cancel_left hcomb with h3 h4
              subst h3
              rcases literal_spec hl with ⟨ptail, hinc, hmeta, hnx⟩
              rcases hpr with h2 | h2
              · have hptail : ptail ≠ [] := by
                  intro hp0
                  rw [hp0] at hnx
                  simp at hnx
                  exact hrec.1 hnx
                rw [hinc, advanceDirSet_literal_self hmeta hptail] at h2
                simp at h2
              · apply hf
                unfold anyImmediate at h2
                unfold anyFileMatch
                rcases List.any_eq_true.mp h2 with ⟨e, he, him⟩
                exact List.any_eq_true.mpr ⟨e, he, immediate_matchFile him⟩
            · split at hq <;> simp at hq
          · simp at hq
    · -- general path
      rw [generalStep_eq] at hq
      simp only [readDir] at hq
      rcases List.mem_cons.mp hq with h1 | h1
      · rintro ⟨t, ht⟩
        subst h1
        have := congrArg List.length ht
        simp at this
      · exact matchEntries_pruned hpr q h1

/-- If a string consists only of separators, every piece of its split is
empty. -/
theorem splitSlash_all_slash {l : List Char} (h : ∀ c ∈ l, c = '/') :
    ∀ piece ∈ splitSlash l, piece = [] := by
  induction l with
  | nil =>
    intro piece hp
    simp [splitSlash] at hp
    exact hp
  | cons c rest ih =>
    intro piece hp
    have hc : c = '/' := h c (by simp)
    rw [splitSlash, if_pos hc] at hp
    rcases List.mem_cons.mp hp with h1 | h1
    · exact h1
    · exact ih (fun d hd => h d (by simp [hd])) piece h1

/-- A string of separators (or the empty string) has no nonempty path
segments. -/
theorem pathNames_all_slash {s : String} (h : ∀ c ∈ s.data, c = '/') :
    pathNames s = [] := by
  unfold pathNames
  have : (splitSlash s.data).filter (fun piece => piece ≠ []) = [] := by
    apply List.filter_eq_nil.mpr
    intro piece hp
    simp [splitSlash_all_slash h piece hp]
  rw [this]
  rfl

/-- A failed compilation means the string is malformed. -/
theorem newPattern_error_bad {p : String} {e : Unit} (h : newPattern p = .error e) :
    badPattern p = true := by
  unfold newPattern at h
  cases hpm : pathMatch p "" with
  | error e2 => simp [badPattern, hpm]
  | ok b =>
    rw [hpm] at h
    cases hpn : pathNames p with
    | nil => rw [hpn] at h; simp at h
    | cons s rest => rw [hpn] at h; simp at h

/-- A successful compilation means the string is well-formed. -/
theorem newPattern_ok_good {p : String} {l : List Pattern} (h : newPattern p = .ok l) :
    badPattern p = false := by
  unfold newPattern at h
  cases hpm : pathMatch p "" with
  | error e2 => rw [hpm] at h; simp at h
  | ok b => simp [badPattern, hpm]

/-- The failed-pattern component of `newPatterns` is exactly the sublist of
malformed pattern strings, in order. -/
theorem newPatterns_errs (ps : List String) :
    (newPatterns ps).2 = ps.filter badPattern := by
  induction ps with
  | nil => rfl
  | cons p rest ih =>
    rw [newPatterns, List.filter_cons]
    cases hnp : newPattern p with
    | error e =>
      rw [newPattern_error_bad hnp]
      simp [ih]
    | ok pats =>
      rw [newPattern_ok_good hnp]
      simp [ih]

/-- Every pattern `newPattern` emits is nonempty. -/
theorem newPattern_ne_nil {p : String} {l : List Pattern} (h : newPattern p = .ok l) :
    ∀ q ∈ l, q ≠ [] := by
  unfold newPattern at h
  cases hpm : pathMatch p "" with
  | error e => rw [hpm] at h; simp at h
  | ok b =>
    rw [hpm] at h
    cases hpn : pathNames p with
    | nil =>
      rw [hpn] at h
      simp at h
      subst h
      simp
    | cons s rest =>
      rw [hpn] at h
      simp only at h
      split at h
      · rename_i hcond
        cases h
        intro q hq
        rcases List.mem_cons.mp hq with h1 | h1
        · simp [h1]
        · simp at h1
          simp [h1, hcond.2]
      · cases h
        intro q hq
        simp at hq
        simp [hq]

/-- Every compiled pattern is nonempty. -/
theorem newPatterns_ne_nil (ps : List String) :
    ∀ q ∈ (newPatterns ps).1, q ≠ [] := by
  induction ps with
  | nil => simp [newPatterns]
  | cons p rest ih =>
    rw [newPatterns]
    cases hnp : newPattern p with
    | error e =>
      simp only
      exact ih
    | ok pats =>
      simp only
      intro q hq
      rcases List.mem_append.mp hq with h1 | h1
      · exact newPattern_ne_nil hnp q h1
      · exact ih q h1

/-- Directory advancement preserves pattern nonemptiness. -/
theorem advanceDirSet_ne_nil {inc : List Pattern} (n : String)
    (h : ∀ q ∈ inc, q ≠ []) : ∀ q ∈ advanceDirSet inc n, q ≠ [] := by
  intro q hq
  unfold advanceDirSet at hq
  rcases List.mem_flatMap.mp hq with ⟨p, hp, hq2⟩
  have hpne := h p hp
  match p with
  | [] => exact absurd rfl hpne
  | step :: rest =>
    simp only [matchDir] at hq2
    split at hq2
    · split at hq2
      · simp at hq2
        simp [hq2]
      · rename_i hrest
        simp at hq2
        rcases hq2 with h1 | h1
        · simp [h1]
        · rw [h1]; exact hrest
    · split at hq2
      · simp at hq2
      · split at hq2
        · simp at hq2
        · rename_i hrest
          simp at hq2
          rw [hq2]; exact hrest

/-! ## Concrete evaluations of `path.Match`

`goMatch` is defined by well-founded recursion, so concrete instances are
evaluated once here by simp and reused below. -/

set_option maxHeartbeats 1000000 in
theorem matchName_x_x : matchName "x" "x" = true := by
  simp [matchName, pathMatch, goMatch, starLoop, validateRest, scanChunk, scanTo,
    dropStars, matchChunk, matchChunk_class_eq, matchRanges_eq, getEsc, stripCaret]

set_option maxHeartbeats 1000000 in
theorem matchName_a_a : matchName "a" "a" = true := by
  simp [matchName, pathMatch, goMatch, starLoop, validateRest, scanChunk, scanTo,
    dropStars, matchChunk, matchChunk_class_eq, matchRanges_eq, getEsc, stripCaret]

set_option maxHeartbeats 1000000 in
theorem matchName_b_b : matchName "b" "b" = true := by
  simp [matchName, pathMatch, goMatch, starLoop, validateRest, scanChunk, scanTo,
    dropStars, matchChunk, matchChunk_class_eq, matchRanges_eq, getEsc, stripCaret]

set_option maxHeartbeats 1000000 in
theorem matchName_star_x : matchName "*" "x" = true := by
  simp [matchName, pathMatch, goMatch, starLoop, validateRest, scanChunk, scanTo,
    dropStars, matchChunk, matchChunk_class_eq, matchRanges_eq, getEsc, stripCaret]

set_option maxHeartbeats 1000000 in
theorem pathMatch_valid_xy : pathMatch "x/y" "" = .ok false := by
  simp [pathMatch, goMatch, starLoop, validateRest, scanChunk, scanTo,
    dropStars, matchChunk, matchChunk_class_eq, matchRanges_eq, getEsc, stripCaret]

set_option maxHeartbeats 1000000 in
theorem pathMatch_valid_astarb : pathMatch "a/**/b" "" = .ok false := by
  simp [pathMatch, goMatch, starLoop, validateRest, scanChunk, scanTo,
    dropStars, matchChunk, matchChunk_class_eq, matchRanges_eq, getEsc, stripCaret]

set_option maxHeartbeats 1000000 in
theorem pathMatch_bad_lbrack : pathMatch "[" "" = .error () := by
  simp [pathMatch, goMatch, starLoop, validateRest, scanChunk, scanTo,
    dropStars, matchChunk, matchChunk_class_eq, matchRanges_eq, getEsc, stripCaret]

set_option maxHeartbeats 1000000 in
theorem pathMatch_valid_a : pathMatch "a" "" = .ok false := by
  simp [pathMatch, goMatch, starLoop, validateRest, scanChunk, scanTo,
    dropStars, matchChunk, matchChunk_class_eq, matchRanges_eq, getEsc, stripCaret]

set_option maxHeartbeats 1000000 in
theorem pathMatch_valid_starstar_a : pathMatch "**/a" "" = .ok false := by
  simp [pathMatch, goMatch, starLoop, validateRest, scanChunk, scanTo,
    dropStars, matchChunk, matchChunk_class_eq, matchRanges_eq, getEsc, stripCaret]

set_option maxHeartbeats 1000000 in
theorem pathMatch_valid_ab : pathMatch "a/b" "" = .ok false := by
  simp [pathMatch, goMatch, starLoop, validateRest, scanChunk, scanTo,
    dropStars, matchChunk, matchChunk_class_eq, matchRanges_eq, getEsc, stripCaret]

/-! ## The claims -/

/-- Claim C1 (code bug).  `MatchPath` and `Match` disagree on a singleton
tree: with the single include pattern `"x/y"` (a `matchGlob` built by `New`
from non-trivial pattern lists), `MatchPath "x"` is `false`, yet `Match`
over the tree containing exactly the file `x` emits `x` — the literal
fast-path stats `x`, finds a plain file, and yields it even though the
pattern still has a residual term.  This contradicts `New`'s documented
match semantics (pattern terms must match all levels of the path), which
`MatchPath` implements. -/
theorem c1_matchpath_match_divergence :
    New ["x/y"] [] = .ok (Glob.matchG [["x", "y"]] []) ∧
    MatchPath (Glob.matchG [["x", "y"]] []) "x" = false ∧
    (MatchTree (Glob.matchG [["x", "y"]] []) (singletonTree (pathNames "x"))
        [] false).out = [(["x"], none)] := by
  refine ⟨?_, ?_, ?_⟩
  · simp [New, newPatterns, newPattern, pathMatch_valid_xy]
    rfl
  · simp [MatchPath, matchGlobMatchPath, matchPathLoop, anyImmediate, advanceDirSet,
      matchDir, matchName_x_x, pathNames, splitSlash]
  · show (matchStep (Node.dir [("x", Node.file)]) [] false false [["x", "y"]] []).out
      = [(["x"], none)]
    simp [matchStep_eq, generalStep_eq, matchEntries, allStep_eq, allEntries, literal,
      always, anyFileMatch, anyImmediate, advanceDirSet, matchDir, matchFile, hasMeta,
      statChild, findEntry, readDir, Node.isDir]

/-- Claim C2 (code bug).  The spec (and `New`'s documentation) give `"**"`
the meaning "any number of levels, including zero", so `"a/**/b"` should
match the path `"a/b"`; but the compiled advancement gives a non-leading
`"**"` "at least one level" semantics (only a leading `"**"` is duplicated
at compile time), so `MatchPath "a/b"` returns `false` while the spec-side
predicate holds. -/
theorem c2_starstar_zero_levels_divergence :
    New ["a/**/b"] [] = .ok (Glob.matchG [["a", "**", "b"]] []) ∧
    MatchPath (Glob.matchG [["a", "**", "b"]] []) "a/b" = false ∧
    specMatches ["a/**/b"] [] "a/b" := by
  refine ⟨?_, ?_, ?_⟩
  · simp [New, newPatterns, newPattern, pathMatch_valid_astarb]
    rfl
  · simp [MatchPath, matchGlobMatchPath, matchPathLoop, anyImmediate, advanceDirSet,
      matchDir, matchName_a_a, pathNames, splitSlash]
  · have hb : termsMatch ["b"] ["b"] = true := by
      show (matchName "b" "b" && termsMatch [] []) = true
      rw [matchName_b_b]
      rfl
    have hsb : termsMatch ["**", "b"] ["b"] = true := by
      show ((List.range (["b"].length + 1)).any fun k =>
        termsMatch ["b"] (List.drop k ["b"])) = true
      exact List.any_eq_true.mpr ⟨0, by decide, hb⟩
    have hasb : termsMatch ["a", "**", "b"] ["a", "b"] = true := by
      show (matchName "a" "a" && termsMatch ["**", "b"] ["b"]) = true
      rw [matchName_a_a, hsb]
      rfl
    refine ⟨⟨"a/**/b", by simp, ?_⟩, ?_⟩
    · show termsMatch (pathNames "a/**/b") (pathNames "a/b") = true
      rw [show pathNames "a/**/b" = ["a", "**", "b"] from rfl,
        show pathNames "a/b" = ["a", "b"] from rfl]
      exact hasb
    · intro e he
      simp at he

/-- Claim C3 (code bug).  `matchFile` rejects a multi-term pattern, yet the
literal fast-path of `matchStep` emits a plain file even when the single
include pattern still has residual terms: with include `"a/b"` over a tree
whose entry `a` is a plain file, `Match` emits `a` although no pattern
file-matches it. -/
theorem c3_multiterm_file_emission :
    matchFile ["a", "b"] "a" = false ∧
    (matchStep (Node.dir [("a", Node.file)]) [] false false [["a", "b"]] []).out
      = [(["a"], none)] := by
  constructor
  · rfl
  · simp [matchStep_eq, generalStep_eq, matchEntries, allStep_eq, allEntries, literal,
      always, anyFileMatch, anyImmediate, advanceDirSet, matchDir, matchFile, hasMeta,
      statChild, findEntry, readDir, Node.isDir]

/-- Claim C4 (code bug).  With `includeDirs = true`, the literal fast-path
passes `yieldDir = includeDirs` into its recursive call regardless of any
immediate match, so with include `"a/*"` over the tree `a/x` the directory
`a` is emitted although no include pattern immediately matches `a`
(`matchDir` on `["a", "*"]` returns `false` for `a`). -/
theorem c4_unmatched_directory_emission :
    anyImmediate [["a", "*"]] "a" = false ∧
    (matchStep (Node.dir [("a", Node.dir [("x", Node.file)])]) [] false true
        [["a", "*"]] []).out = [(["a"], none), (["a", "x"], none)] := by
  constructor
  · simp [anyImmediate, matchDir, matchName_a_a]
  · simp [matchStep_eq, generalStep_eq, matchEntries, allStep_eq, allEntries, literal,
      always, anyFileMatch, anyImmediate, advanceDirSet, matchDir, matchFile, hasMeta,
      statChild, findEntry, readDir, Node.isDir, matchName_star_x]

/-- Claim C5, counterexample.  `New` short-circuits to the match-all
strategy before validating anything: with the malformed include `"["`
alongside `"**"` and no excludes, `New` returns `allGlob` and a nil error
even though `"["` is syntactically malformed. -/
theorem c5_shortcircuit_skips_validation :
    New ["[", "**"] [] = .ok Glob.allG ∧ badPattern "[" = true := by
  constructor
  · rfl
  · simp [badPattern, pathMatch_bad_lbrack]

/-- Claim C5, as amended.  When `New` does not short-circuit to the
match-all or match-none strategy, it returns a non-nil error iff at least
one supplied pattern string is malformed, and the error aggregates every
malformed string of both lists (includes first, in order). -/
theorem c5_general_branch_error_aggregation (includes excludes : List String)
    (h1 : ¬(excludes = [] ∧ includes.contains "**" = true))
    (h2 : ¬(includes = [] ∨ excludes.contains "**" = true)) :
    ((∃ l, New includes excludes = .error l) ↔
      ∃ p ∈ includes ++ excludes, badPattern p = true) ∧
    ∀ l, New includes excludes = .error l →
      l = includes.filter badPattern ++ excludes.filter badPattern := by
  unfold New
  rw [if_neg h1, if_neg h2]
  simp only [newPatterns_errs]
  by_cases hc : includes.filter badPattern ++ excludes.filter badPattern = []
  · rw [if_pos hc]
    refine ⟨⟨?_, ?_⟩, ?_⟩
    · rintro ⟨l, hl⟩
      simp at hl
    · rintro ⟨p, hp, hbad⟩
      exfalso
      have hmem : p ∈ includes.filter badPattern ++ excludes.filter badPattern := by
        rcases List.mem_append.mp hp with h | h
        · exact List.mem_append.mpr (Or.inl (List.mem_filter.mpr ⟨h, hbad⟩))
        · exact List.mem_append.mpr (Or.inr (List.mem_filter.mpr ⟨h, hbad⟩))
      rw [hc] at hmem
      simp at hmem
    · intro l hl
      simp at hl
  · rw [if_neg hc]
    refine ⟨⟨?_, ?_⟩, ?_⟩
    · intro _
      rcases List.exists_mem_of_ne_nil _ hc with ⟨p, hp⟩
      rcases List.mem_append.mp hp with h | h
      · rcases List.mem_filter.mp h with ⟨hmem, hbad⟩
        exact ⟨p, List.mem_append.mpr (Or.inl hmem), hbad⟩
      · rcases List.mem_filter.mp h with ⟨hmem, hbad⟩
        exact ⟨p, List.mem_append.mpr (Or.inr hmem), hbad⟩
    · intro _
      exact ⟨_, rfl⟩
    · intro l hl
      injection hl with hl2
      exact hl2.symm

/-- Claim C5, witness for the amended statement at a concrete input. -/
theorem c5_general_branch_witness :
    ((∃ l, New ["a"] ["["] = .error l) ↔
      ∃ p ∈ ["a"] ++ ["["], badPattern p = true) ∧
    ∀ l, New ["a"] ["["] = .error l →
      l = (["a"].filter badPattern) ++ (["["].filter badPattern) :=
  c5_general_branch_error_aggregation ["a"] ["["] (by simp) (by simp)

/-- Claim C6 (confirmed).  At any walker invocation on a directory: if
advancing every active include pattern over an entry's name yields an empty
next-level include set, or some active exclude pattern immediately matches
the name, then the walk never lists that entry's directory nor any
directory below it (no read path extends `dir ++ [n0]`). -/
theorem c6_pruned_directory_never_read {es : List (String × Node)}
    {dir : List String} {yd id : Bool} {inc exc : List Pattern} {n0 : String}
    {c0 : Node} (hmem : (n0, c0) ∈ es)
    (hpr : advanceDirSet inc n0 = [] ∨ anyImmediate exc n0 = true) :
    ∀ q ∈ (matchStep (Node.dir es) dir yd id inc exc).reads,
      ¬ ∃ t, q = dir ++ n0 :: t :=
  fun q hq => matchStep_pruned hpr q hq

/-- Claim C6, witness: a concrete tree whose entry `a` is excluded; the
root (which the walk does read) is not at or below `a`. -/
theorem c6_pruning_witness : ¬ ∃ t, ([] : List String) = [] ++ "a" :: t :=
  @c6_pruned_directory_never_read [("a", Node.dir [])] [] false false [["**"]]
    [["a"]] "a" (Node.dir []) (by simp)
    (Or.inr (by simp [anyImmediate, matchDir, matchName_a_a]))
    []
    (by simp [matchStep_eq, generalStep_eq, matchEntries, readDir, always,
      anyImmediate, matchDir, matchName_a_a])

/-- Claim C7 (confirmed).  For a valid pattern string whose first non-empty
segment is `"**"` and which has at least one further segment, compilation
appends exactly two patterns — the full term sequence and its tail; every
other valid pattern string appends exactly one pattern. -/
theorem c7_compiler_emission_count (p : String) (b : Bool)
    (h : pathMatch p "" = .ok b) :
    ∃ l, newPattern p = .ok l ∧
      (((pathNames p).head? = some "**" ∧ (pathNames p).tail ≠ []) →
        l = [pathNames p, (pathNames p).tail]) ∧
      (¬((pathNames p).head? = some "**" ∧ (pathNames p).tail ≠ []) →
        l.length = 1) := by
  unfold newPattern
  rw [h]
  cases hpn : pathNames p with
  | nil =>
    refine ⟨[[""]], by simp, ?_, ?_⟩
    · intro hcond
      simp at hcond
    · intro _
      rfl
  | cons s rest =>
    by_cases hss : s = "**" ∧ rest ≠ []
    · refine ⟨[s :: rest, rest], by simp [hss], ?_, ?_⟩
      · intro _
        rfl
      · intro hcond
        exfalso
        exact hcond ⟨by simp [hss.1], by simpa using hss.2⟩
    · refine ⟨[s :: rest], by simp [hss], ?_, ?_⟩
      · intro hcond
        exfalso
        simp at hcond
        exact hss ⟨hcond.1, by simpa using hcond.2⟩
      · intro _
        rfl

/-- Claim C7, witness at the pattern string `"**/a"`. -/
theorem c7_compiler_witness :
    ∃ l, newPattern "**/a" = .ok l ∧
      (((pathNames "**/a").head? = some "**" ∧ (pathNames "**/a").tail ≠ []) →
        l = [pathNames "**/a", (pathNames "**/a").tail]) ∧
      (¬((pathNames "**/a").head? = some "**" ∧ (pathNames "**/a").tail ≠ []) →
        l.length = 1) :=
  c7_compiler_emission_count "**/a" false pathMatch_valid_starstar_a

/-- Claim C8 (confirmed).  In the literal fast-path (a single include
pattern with a metacharacter-free next term that no exclude file-matches),
a stat probe reporting that the target does not exist produces no emitted
item and no error — the branch ends as a non-match — while any other probe
failure is emitted as a `(path, error)` item, the same shape a
directory-listing failure is reported with. -/
theorem c8_literal_probe_errors (s : String) (rest : List String)
    (exc : List Pattern) (es : List (String × Node)) (dir : List String)
    (yd id : Bool) (hmeta : hasMeta s = false)
    (hexc : ∀ e ∈ exc, matchFile e s = false) :
    (findEntry es s = none →
      matchStep (Node.dir es) dir yd id [s :: rest] exc = ⟨[], []⟩) ∧
    (∀ code, findEntry es s = some (Node.badStat code) →
      matchStep (Node.dir es) dir yd id [s :: rest] exc
        = ⟨[(dir, some (FsErr.ioErr code))], []⟩) := by
  have halways : always [s :: rest] = false := by
    unfold always
    simp
    intro hs
    exact absurd hs (ne_starstar_of_no_meta hmeta)
  have hlit : literal [s :: rest] = some (s, if rest = [] then [] else [rest]) := by
    simp [literal, hmeta]
  have hfm : anyFileMatch exc s = false := by
    unfold anyFileMatch
    rw [List.any_eq_false]
    intro e he
    simp [hexc e he]
  constructor
  · intro hfe
    have hstat : statChild (Node.dir es) s = .error .notExist := by
      simp [statChild, hfe]
    rw [matchStep_eq]
    simp only [halways, Bool.false_eq_true, if_false, hlit, hfm, hstat]
  · intro code hfe
    have hstat : statChild (Node.dir es) s = .error (.ioErr code) := by
      simp [statChild, hfe]
    rw [matchStep_eq]
    simp only [halways, Bool.false_eq_true, if_false, hlit, hfm, hstat]

/-- Claim C8, witness: a probe for `a` in an empty directory reports
`ErrNotExist` and the walk emits nothing. -/
theorem c8_probe_witness :
    matchStep (Node.dir []) [] false false [["a", "b"]] [] = ⟨[], []⟩ :=
  (c8_literal_probe_errors "a" ["b"] [] [] [] false false (by decide)
    (by simp)).1 rfl

/-- Claim C9 (confirmed).  On an input consisting only of `/` characters
(or the empty string), `MatchPath` of the general strategy returns `false`
(the filtered segment list is empty), while the match-all strategy's
`MatchPath` returns `true` — the two strategies disagree on the empty
path. -/
theorem c9_empty_path_disagreement (inc exc : List Pattern) (s : String)
    (h : ∀ c ∈ s.data, c = '/') :
    MatchPath (Glob.matchG inc exc) s = false ∧ MatchPath Glob.allG s = true := by
  constructor
  · show matchGlobMatchPath inc exc s = false
    unfold matchGlobMatchPath
    rw [pathNames_all_slash h]
    rfl
  · rfl

/-- Claim C9, witness at the empty string. -/
theorem c9_empty_path_witness :
    MatchPath (Glob.matchG [["a"]] [["b"]]) "" = false ∧
    MatchPath Glob.allG "" = true :=
  c9_empty_path_disagreement [["a"]] [["b"]] "" (by simp)

/-- Claim C10 (confirmed).  Every pattern produced by compilation is a
nonempty term list, and directory advancement only ever emits nonempty
patterns, so the head-term access of every advancement step stays in
bounds for every reachable pattern set. -/
theorem c10_patterns_nonempty (ps : List String) (inc : List Pattern) (n : String)
    (hinc : ∀ q ∈ inc, q ≠ []) :
    (∀ q ∈ (newPatterns ps).1, q ≠ []) ∧ (∀ q ∈ advanceDirSet inc n, q ≠ []) :=
  ⟨newPatterns_ne_nil ps, advanceDirSet_ne_nil n hinc⟩

/-- Claim C10, witness: the advancement of `["a", "b"]` over `a` emits the
nonempty continuation `["b"]`. -/
theorem c10_nonempty_witness : (["b"] : Pattern) ≠ [] :=
  (c10_patterns_nonempty ["a/b"] [["a", "b"]] "a" (by simp)).2 ["b"]
    (by simp [advanceDirSet, matchDir, matchName_a_a])

end GlobSpec
